import Mathlib

/-!
Verification of the `git_revision` Pelican plugin (`src/__init__.py`).

The plugin hooks Pelican's `content_object_init` signal.  For every non-static
content object it discovers the enclosing git repository, lists the commits
touching the file (oldest first), and either

* (already-chained object, lines 53-70) overwrites the object's date from its
  anchor commit and back-patches the previous revision's modified date, or
* (fresh live document, lines 72-130) infers date/modified from the first and
  latest commit, materializes one revision document per commit, computes a
  collision-free output path per revision, links revisions with
  previous/next references (the second-to-last revision's next points at the
  live document), re-sends the init signal per revision, and finally attaches
  the live document's own chain tuple.

Embedding conventions:

* Python strings are Lean `String`s; the `posixpath`/`os.path` primitives used
  by the plugin (`split`, `dirname`, `basename`, `splitext`, `join`,
  `str.endswith('/')`, `str.replace`) are re-implemented bit-exactly on the
  underlying `List Char`.
* `SafeDatetime.fromtimestamp` is an injective conversion of the commit's
  `authored_date`; dates are modelled as the raw timestamp (`Int`).  The
  `locale_date` / `locale_modified` attributes are `strftime` renderings that
  the plugin always assigns together with `date` / `modified`; they are pure
  functions of those fields and are not modelled separately.
* Python object references between revisions are modelled as indices into the
  shared revision sequence (`ChainState.revs`); the live document is the
  distinguished `Ref.live` slot.
* External capabilities (GitPython probing, `iter_commits`, blob lookup,
  `os.path.relpath`, Pelican's `Readers.read_file`) are fields of `Env`;
  exceptions raised by the hook are the `HookResult.error` constructor, which
  also carries the state at raise time (in-place mutations persist).
-/

set_option maxHeartbeats 1000000

namespace GitRevision

/-! ### posixpath primitives

`os.path` on the POSIX host is `posixpath`.  `posixpath.split(p)` takes the
text after the last `/` as the tail and the text before it as the head,
stripping trailing slashes from the head unless the head consists only of
slashes.  `dirname`/`basename` are the two components of that split. -/

/-- The suffix of `p` after the last `/` (all of `p` when there is none):
the `tail` of `posixpath.split` and the result of `posixpath.basename`. -/
def tailAfterLastSep (p : List Char) : List Char :=
  (p.reverse.takeWhile (fun ch => ch ≠ '/')).reverse

/-- The prefix of `p` up to and including the last `/` (empty when there is
none): the head of `posixpath.split` before trailing-slash stripping. -/
def headUptoLastSep (p : List Char) : List Char :=
  (p.reverse.dropWhile (fun ch => ch ≠ '/')).reverse

/-- `str.rstrip('/')`: drop trailing slashes. -/
def rstripSep (l : List Char) : List Char :=
  (l.reverse.dropWhile (fun ch => ch = '/')).reverse

/-- The head of `posixpath.split p` / the value of `posixpath.dirname p`:
trailing slashes are stripped unless the head is empty or all slashes. -/
def splitHeadL (p : List Char) : List Char :=
  if headUptoLastSep p = [] ∨ (headUptoLastSep p).all (fun ch => ch = '/') then
    headUptoLastSep p
  else rstripSep (headUptoLastSep p)

/-- `posixpath.dirname`. -/
def posixDirname (s : String) : String := ⟨splitHeadL s.data⟩

/-- `posixpath.basename`. -/
def posixBasename (s : String) : String := ⟨tailAfterLastSep s.data⟩

/-! ### `discover_repository` (lines 16-23)

```python
@functools.lru_cache(None)
def discover_repository(path):
    root, tail = path, None
    while tail or tail is None:
        try:
            return git.Repo(root)
        except git.InvalidGitRepositoryError:
            root, tail = os.path.split(root)
```

`isRepo root` abstracts "`git.Repo(root)` succeeds"; a repository is
identified by the directory at which the probe succeeded.  The loop body
probes the current `root`, then steps to `os.path.split(root)` and exits
(returning `None`) as soon as the split tail is empty, i.e. at the filesystem
root.  Each continuing step strictly shrinks `root`
(`splitHeadL_length_lt`), so `path.length + 1` probes always suffice; the
recursion is written with that explicit bound so that it evaluates by kernel
reduction, and `discoverGo_fuel` below shows the bound is irrelevant. -/

def discoverGo (isRepo : String → Bool) : Nat → String → Option String
  | 0, _ => none
  | n + 1, root =>
    if isRepo root then some root
    else if tailAfterLastSep root.data = [] then none
    else discoverGo isRepo n ⟨splitHeadL root.data⟩

def discover_repository (isRepo : String → Bool) (path : String) : Option String :=
  discoverGo isRepo (path.length + 1) path

/-- The sequence of directories the walk probes: the path itself followed by
its ancestor directories, ending at the first directory whose split tail is
empty (the filesystem root). -/
def probesGo : Nat → String → List String
  | 0, _ => []
  | n + 1, root =>
    root :: (if tailAfterLastSep root.data = [] then [] else probesGo n ⟨splitHeadL root.data⟩)

def ancestorProbes (path : String) : List String := probesGo (path.length + 1) path


/-! ### The `lru_cache` memoisation of `discover_repository`

`functools.lru_cache(None)` keeps an unbounded mapping from argument to
result and invokes the wrapped function only on a cache miss.  The third
component of `cachedDiscover`'s result counts how many times the underlying
walk ran (1 on a miss, 0 on a hit). -/

def cacheFind (entries : List (String × Option String)) (p : String) :
    Option (Option String) :=
  match entries with
  | [] => none
  | (q, r) :: rest => if q = p then some r else cacheFind rest p

def cachedDiscover (isRepo : String → Bool) (entries : List (String × Option String))
    (p : String) : Option String × List (String × Option String) × Nat :=
  match cacheFind entries p with
  | some r => (r, entries, 0)
  | none => (discover_repository isRepo p,
             (p, discover_repository isRepo p) :: entries, 1)


/-! ### Remaining string primitives used by the plugin -/

/-- `os.path.splitext p`: split off the extension at the last dot, provided
the last dot comes after the last `/` and at least one non-dot character
stands between them (leading dots of a basename never start an extension). -/
def splitextL (p : List Char) : List Char × List Char :=
  let r := p.reverse
  let post := r.takeWhile (fun ch => ch ≠ '.')
  if post.length = r.length then (p, [])
  else if '/' ∈ post then (p, [])
  else if ((r.drop (post.length + 1)).takeWhile (fun ch => ch ≠ '/')).all
      (fun ch => ch = '.') then (p, [])
  else ((r.drop (post.length + 1)).reverse, '.' :: post.reverse)

def splitext (s : String) : String × String :=
  (⟨(splitextL s.data).1⟩, ⟨(splitextL s.data).2⟩)

/-- `str.endswith('/')`. -/
def endswithSep (s : String) : Bool := s.data.getLast? = some '/'

/-- `posixpath.join(a, b)`: `b` replaces everything when absolute, otherwise
it is appended, inserting a `/` unless `a` is empty or already ends in one. -/
def posixJoin2 (a b : String) : String :=
  if b.data.head? = some '/' then b
  else if a.data = [] ∨ a.data.getLast? = some '/' then ⟨a.data ++ b.data⟩
  else ⟨a.data ++ '/' :: b.data⟩

/-- `posixpath.join(a, *rest)`. -/
def posixJoinMany (a : String) (rest : List String) : String :=
  rest.foldl posixJoin2 a

/-- `posixpath.join` with exactly four arguments, as in line 104. -/
def posixJoin4 (a b c d : String) : String :=
  posixJoin2 (posixJoin2 (posixJoin2 a b) c) d

/-- `str.replace` of every backslash by `/` (line 28). -/
def replaceBackslash (s : String) : String :=
  ⟨s.data.map (fun ch => if ch = '\\' then '/' else ch)⟩

/-! ### Data model -/

/-- A git commit as the plugin reads it: `hexsha` and `authored_date`
(a Unix timestamp; `SafeDatetime.fromtimestamp` is modelled as the timestamp
itself).  GitPython compares commits by their sha, so commit equality is
structural equality here. -/
structure Commit where
  hexsha : String
  authored_date : Int
deriving DecidableEq

/-- Target of a `next_revision` reference: the live content object itself
(line 119, `content`) or a historical revision, identified by its index in
the shared `revisions` sequence. -/
inductive NextRef where
  | content
  | rev (i : Nat)
deriving DecidableEq

/-- The `git` namedtuple of line 13:
`(commit, file_path, revisions, previous_revision, next_revision)`.
Python object references into the shared revision list are modelled as
indices; `revisions` holds the indices of the shared sequence (the same
backing list for every chain member). -/
structure GitInfo where
  commit : Commit
  file_path : String
  revisions : List Nat
  previous_revision : Option Nat
  next_revision : Option NextRef
deriving DecidableEq

/-- A Pelican content object, restricted to the attributes the plugin reads
or writes.  `date?`/`modified?` are `none` exactly when
`hasattr(content, 'date')` / `hasattr(content, 'modified')` is false;
assigning them also models the accompanying `locale_date`/`locale_modified`
strftime renderings, which are pure functions of these fields.  `save_as` and
`url` reflect `override_save_as`/`override_url` once those are assigned. -/
structure Content where
  isStatic : Bool
  source_path : String
  url : String
  save_as : String
  date? : Option Int
  modified? : Option Int
  git? : Option GitInfo
deriving DecidableEq

/-- The mutable object graph of one live document: the live content object
plus the shared ordered sequence of its revision objects (oldest first). -/
structure ChainState where
  live : Content
  revs : List Content
deriving DecidableEq

/-- Which object the `content_object_init` signal was sent to. -/
inductive Ref where
  | live
  | rev (i : Nat)
deriving DecidableEq

/-- Exceptions that can escape the hook while a chain is being built:
`materialization` models the `KeyError` of `commit.tree / path` (line 86),
`readFailed` models the external reader rejecting the extracted blob
(line 93). -/
inductive BuildError where
  | materialization (hexsha : String)
  | readFailed (hexsha : String) (msg : String)
deriving DecidableEq

/-- Outcome of one invocation of the hook.  Python mutates objects in place,
so a raised exception (`error`) still carries the state at raise time. -/
inductive HookResult where
  | ok (s : ChainState)
  | error (e : BuildError) (s : ChainState)
deriving DecidableEq

def HookResult.state : HookResult → ChainState
  | .ok s => s
  | .error _ s => s

def HookResult.isOk : HookResult → Bool
  | .ok _ => true
  | .error _ _ => false

/-- The external collaborators of the plugin, all pure for the duration of
one Pelican run: `isRepo` abstracts a successful `git.Repo(dir)` probe;
`repoWorkingDir` maps the discovered root to `repository.working_dir`;
`relpath` is `os.path.relpath`; `iterCommits root path` is
`repository.iter_commits(paths=path)` (newest first, as `git log`);
`blobExists commit path` is whether `commit.tree / path` succeeds;
`readFile format commit` is the temporary-file extraction of the blob
followed by `Readers(...).read_file(...)` (lines 87-95). -/
structure Env where
  isRepo : String → Bool
  repoWorkingDir : String → String
  relpath : String → String → String
  iterCommits : String → String → List Commit
  blobExists : Commit → String → Bool
  readFile : String → Commit → Except String Content

/-- Lines 26-28: `os.path.relpath(path, repository.working_dir)` with
backslashes normalised to `/`. -/
def make_repository_file_path (env : Env) (root path : String) : String :=
  replaceBackslash (env.relpath path (env.repoWorkingDir root))

/-- Line 87: `os.path.splitext(repository_file_path)[1][1:]`. -/
def revisionFormat (fp : String) : String := ⟨(splitextL fp.data).2.drop 1⟩

/-- Lines 98-107: the revision's `override_save_as`.
`posixpath.join(url if url.endswith('/') else posixpath.dirname(url),
root if root != 'index' else '', commit.hexsha, 'index' + extension)` where
`(root, extension) = os.path.splitext(os.path.basename(content.save_as))`. -/
def revisionSaveAs (live : Content) (hexsha : String) : String :=
  posixJoin4
    (if endswithSep live.url then live.url else posixDirname live.url)
    (if (splitext (posixBasename live.save_as)).1 ≠ "index" then
       (splitext (posixBasename live.save_as)).1
     else "")
    hexsha
    ("index" ++ (splitext (posixBasename live.save_as)).2)

/-- Lines 86-108: materialize one historical revision of `live` at `commit`:
the blob must exist in the commit's tree, the external reader must accept it,
then the original source path is restored (line 96) and the computed output
path and url are assigned (lines 104-108). -/
def materializeRevision (env : Env) (fp : String) (live : Content) (commit : Commit) :
    Except BuildError Content :=
  if env.blobExists commit fp = false then .error (.materialization commit.hexsha)
  else
    match env.readFile (revisionFormat fp) commit with
    | .error msg => .error (.readFailed commit.hexsha msg)
    | .ok parsed =>
      .ok { parsed with
            source_path := live.source_path
            save_as := revisionSaveAs live commit.hexsha
            url := posixDirname (revisionSaveAs live commit.hexsha) }

/-- Lines 84-110: the materialization loop, in commit order; the first
failure aborts the whole build (the exception propagates). -/
def materializeAll (env : Env) (fp : String) (live : Content) :
    List Commit → Except BuildError (List Content)
  | [] => .ok []
  | commit :: rest =>
    match materializeRevision env fp live commit with
    | .error e => .error e
    | .ok r =>
      match materializeAll env fp live rest with
      | .error e => .error e
      | .ok rs => .ok (r :: rs)

/-- Dereference a `Ref` in the current state. -/
def getAt (s : ChainState) : Ref → Option Content
  | .live => some s.live
  | .rev i => s.revs[i]?

/-- In-place update of the revision object at index `i` (no effect when the
index is out of range, which never happens in reachable states). -/
def updateRev (l : List Content) (i : Nat) (f : Content → Content) : List Content :=
  match l[i]? with
  | some p => l.set i (f p)
  | none => l

/-- Lines 53-70: the branch for an object that already carries a `git`
attribute.  `created = SafeDatetime.fromtimestamp(content.git.commit.authored_date)`
is assigned to the object's own `date` unconditionally (lines 54-56), and,
when a previous revision exists, to that sibling's `modified` (lines 58-66);
then the hook returns. -/
def setDateAt (created : Int) (t : Ref) (s : ChainState) : ChainState :=
  match t with
  | .live => { s with live := { s.live with date? := some created } }
  | .rev i => { s with revs := updateRev s.revs i (fun r => { r with date? := some created }) }

/-- Lines 58-66: `previous_revision.modified = created` when a previous
revision exists. -/
def backPatch (created : Int) (prev : Option Nat) (s : ChainState) : ChainState :=
  match prev with
  | none => s
  | some j => { s with revs := updateRev s.revs j (fun r => { r with modified? := some created }) }

def applyChainedInit (g : GitInfo) (t : Ref) (s : ChainState) : ChainState :=
  backPatch g.commit.authored_date g.previous_revision
    (setDateAt g.commit.authored_date t s)

/-- Line 126: `pelican.signals.content_object_init.send(revision)` re-enters
the hook for the freshly linked revision.  The re-entrant call performs the
same guards as lines 31-47 and, because the revision already carries its
`git` tuple (assigned on line 123, immediately before the send), always ends
in the lines 53-70 branch.  The final `none` case is unreachable from the
chain-build loop. -/
def signalSend (env : Env) (t : Ref) (s : ChainState) : ChainState :=
  match getAt s t with
  | none => s
  | some c =>
    if c.isStatic then s
    else
      match discover_repository env.isRepo (posixDirname c.source_path) with
      | none => s
      | some root =>
        if ((env.iterCommits root (make_repository_file_path env root c.source_path)).reverse).isEmpty then s
        else
          match c.git? with
          | some g => applyChainedInit g t s
          | none => s

/-- Lines 114-121: the `git` tuple assigned to the revision at index `i`
when `count` revisions exist.  The index arithmetic is Python's (signed):
for a single revision `count - 2 = -1` matches no index, so `next_revision`
is `none`. -/
def mkLinkGit (fp : String) (count : Nat) (commit : Commit) (i : Nat) : GitInfo :=
  { commit := commit
    file_path := fp
    revisions := List.range count
    previous_revision := if i > 0 then some (i - 1) else none
    next_revision :=
      if (i : Int) = (count : Int) - 2 then some NextRef.content
      else if (i : Int) < (count : Int) - 1 then some (NextRef.rev (i + 1))
      else none }

/-- Lines 113-126, one iteration: assign the `git` tuple to revision `i`
(line 123) and re-send the init signal for it (line 126). -/
def linkStep (env : Env) (fp : String) (count : Nat) (commit : Commit) (i : Nat)
    (s : ChainState) : ChainState :=
  signalSend env (.rev i)
    { s with revs := updateRev s.revs i (fun r => { r with git? := some (mkLinkGit fp count commit i) }) }

/-- The body of the `for index, (commit, revision) in enumerate(zip(...))`
loop: indices past the commit list do nothing (zip truncation). -/
def linkFoldF (env : Env) (fp : String) (commits : List Commit) (count : Nat) :
    ChainState → Nat → ChainState :=
  fun st i =>
    match commits[i]? with
    | some commit => linkStep env fp count commit i st
    | none => st

/-- Lines 112-126: the linking loop over all revision indices, in order. -/
def linkAll (env : Env) (fp : String) (commits : List Commit) (count : Nat)
    (s : ChainState) : ChainState :=
  (List.range count).foldl (linkFoldF env fp commits count) s

/-- Lines 72-76: `content.date = SafeDatetime.fromtimestamp(first_commit.authored_date)`
only when the host pipeline set no date. -/
def inferDate (first : Commit) (live0 : Content) : Content :=
  if live0.date? = none then { live0 with date? := some first.authored_date }
  else live0

/-- Lines 78-81: `content.modified` from the latest commit, only when the
first and latest commits differ and no modified value is present. -/
def inferModified (first latest : Commit) (live1 : Content) : Content :=
  if first ≠ latest ∧ live1.modified? = none then
    { live1 with modified? := some latest.authored_date }
  else live1

/-- Lines 72-81 combined. -/
def inferDates (first latest : Commit) (live0 : Content) : Content :=
  inferModified first latest (inferDate first live0)

/-- Lines 128-130: the live document's own `git` tuple, assigned last:
`git_class(latest_commit, repository_file_path, revisions,
revisions[-2] if revision_count > 1 else None, None)`. -/
def attachLiveGit (fp : String) (latest : Commit) (count : Nat) (s2 : ChainState) : ChainState :=
  let g : GitInfo :=
    { commit := latest
      file_path := fp
      revisions := List.range count
      previous_revision := if count > 1 then some (count - 2) else none
      next_revision := none }
  { s2 with live := { s2.live with git? := some g } }

/-- Lines 72-130: the fresh-live-document branch.  Dates are inferred from
the first/latest commit when not already set (lines 72-81), all revisions
are materialized (lines 84-110), linked and re-initialised (lines 112-126),
and the live document's own `git` tuple is attached last (lines 128-130).
A materialization failure raises after the date mutations and before any
`git` assignment, so the error state carries the date-mutated live document
and no chain. -/
def buildFresh (env : Env) (fp : String) (first latest : Commit) (commits : List Commit)
    (s : ChainState) : HookResult :=
  match materializeAll env fp (inferDates first latest s.live) commits with
  | .error e => .error e { s with live := inferDates first latest s.live }
  | .ok revs =>
    .ok (attachLiveGit fp latest revs.length
      (linkAll env fp commits revs.length
        { live := inferDates first latest s.live, revs := revs }))

/-- Lines 31-130: `on_content_object_init(content)`.  Static objects are
skipped (lines 32-33); no enclosing repository (lines 36-38) or an empty
commit list (lines 46-47) return untouched; an object that already carries a
`git` attribute takes the lines 53-70 branch; otherwise the fresh build runs
(lines 72-130).  A revision object without a `git` attribute only receives
the signal from inside the external reader, with a temporary `source_path`
outside any repository, so the fresh build is only ever triggered for the
live document; the model returns the state unchanged in that unreachable
configuration. -/
def on_content_object_init (env : Env) (t : Ref) (s : ChainState) : HookResult :=
  match getAt s t with
  | none => .ok s
  | some c =>
    if c.isStatic then .ok s
    else
      match discover_repository env.isRepo (posixDirname c.source_path) with
      | none => .ok s
      | some root =>
        match (env.iterCommits root (make_repository_file_path env root c.source_path)).reverse with
        | [] => .ok s
        | first :: rest =>
          match c.git? with
          | some g => .ok (applyChainedInit g t s)
          | none =>
            match t with
            | .live =>
              buildFresh env (make_repository_file_path env root c.source_path)
                first ((first :: rest).getLastD first) (first :: rest) s
            | .rev _ => .ok s

/-- The chronological commit list the hook computes for a content object:
empty when no repository encloses the source path or when the path has no
history. -/
def commitsFor (env : Env) (c : Content) : List Commit :=
  match discover_repository env.isRepo (posixDirname c.source_path) with
  | none => []
  | some root => (env.iterCommits root (make_repository_file_path env root c.source_path)).reverse

/-- Modelled from the spec: the host pipeline's sequential per-document
processing loop.  The spec's propagation policy (section 7) requires that
"errors during a single document's chain construction must not abort
processing of other documents"; the host generator that implements this
isolation is not part of this repository's source, so the loop is modelled
as independent per-document invocations of the hook. -/
def processDocuments (env : Env) (docs : List ChainState) : List HookResult :=
  docs.map (fun d => on_content_object_init env .live d)

/-- Probe used by the concrete witnesses: only `/r` is a git repository. -/
def repoProbe : String → Bool := fun p => p == "/r"

/-! ### Path-segment vocabulary and concrete witness data -/

/-- The hash-independent prefix contributed by the leading components of the
output-path join, normalised to end in a separator (or be empty). -/
def joinPre (j : List Char) : List Char :=
  if j = [] then [] else if j.getLast? = some '/' then j else j ++ ['/']

/-- `seg` occurs in `s` as a whole path segment: it contains no separator
and is delimited on the left by the start of the string or a `/`, and on the
right by the end of the string or a `/`. -/
def isPathSegment (seg s : String) : Prop :=
  '/' ∉ seg.data ∧ ∃ pre post : List Char,
    s.data = pre ++ seg.data ++ post ∧
    (pre = [] ∨ pre.getLast? = some '/') ∧
    (post = [] ∨ post.head? = some '/')

def cmA : Commit := { hexsha := "aaa", authored_date := 100 }

def cmB : Commit := { hexsha := "bbb", authored_date := 200 }

def liveW : Content :=
  { isStatic := false
    source_path := "/r/a.md"
    url := "b/p/"
    save_as := "b/p/index.html"
    date? := none
    modified? := none
    git? := none }

/-- A fresh content object as produced by the external reader. -/
def parsedW : Content :=
  { isStatic := false
    source_path := "/tmp/x"
    url := ""
    save_as := ""
    date? := none
    modified? := none
    git? := none }

/-- Environment for the witnesses: `/r` is a repository containing `a.md`
with two commits, `cmB` the newer (git log order: newest first). -/
def envW : Env :=
  { isRepo := repoProbe
    repoWorkingDir := fun _ => "/r"
    relpath := fun p _ => ⟨p.data.drop 3⟩
    iterCommits := fun _ _ => [cmB, cmA]
    blobExists := fun _ _ => true
    readFile := fun _ _ => .ok parsedW }

def sW : ChainState := { live := liveW, revs := [] }

/-- Environment whose tracked path has no history. -/
def envE : Env := { envW with iterCommits := fun _ _ => [] }

/-- Environment in which the blob of the newer commit is missing. -/
def envF : Env := { envW with blobExists := fun cm _ => decide (cm = cmA) }

def gW0 : GitInfo :=
  { commit := cmA
    file_path := "a.md"
    revisions := [0, 1]
    previous_revision := none
    next_revision := some (NextRef.rev 1) }

def gW1 : GitInfo :=
  { commit := cmB
    file_path := "a.md"
    revisions := [0, 1]
    previous_revision := some 0
    next_revision := some NextRef.content }

def revW0 : Content :=
  { isStatic := false
    source_path := "/r/a.md"
    url := "b/p/aaa"
    save_as := "b/p/aaa/index.html"
    date? := some 100
    modified? := none
    git? := some gW0 }

def revW1 : Content :=
  { isStatic := false
    source_path := "/r/a.md"
    url := "b/p/bbb"
    save_as := "b/p/bbb/index.html"
    date? := none
    modified? := none
    git? := some gW1 }

/-- An already-chained state: two revision objects, the second about to be
re-initialised. -/
def sChained : ChainState := { live := liveW, revs := [revW0, revW1] }

def sStaticW : ChainState := { live := { liveW with isStatic := true }, revs := [] }

/-- The revision materialized from `cmA` in the witness environment. -/
def rW : Content :=
  { isStatic := false
    source_path := "/r/a.md"
    url := "b/p/aaa"
    save_as := "b/p/aaa/index.html"
    date? := none
    modified? := none
    git? := none }

instance {eTy aTy : Type} [DecidableEq eTy] [DecidableEq aTy] :
    DecidableEq (Except eTy aTy) := fun x y =>
  match x, y with
  | .error a, .error b =>
    if h : a = b then .isTrue (by rw [h]) else .isFalse (fun hc => h (Except.error.inj hc))
  | .ok a, .ok b =>
    if h : a = b then .isTrue (by rw [h]) else .isFalse (fun hc => h (Except.ok.inj hc))
  | .error _, .ok _ => .isFalse (fun hc => Except.noConfusion hc)
  | .ok _, .error _ => .isFalse (fun hc => Except.noConfusion hc)

/-! ## Theorems -/

lemma length_dropWhile_le (q : Char → Bool) (l : List Char) :
    (l.dropWhile q).length ≤ l.length := by
  induction l with
  | nil => simp [List.dropWhile]
  | cons a t ih =>
    by_cases h : q a
    · rw [List.dropWhile_cons_of_pos h]
      simp only [List.length_cons]
      omega
    · rw [List.dropWhile_cons_of_neg h]

lemma tail_head_length (p : List Char) :
    (tailAfterLastSep p).length + (headUptoLastSep p).length = p.length := by
  unfold tailAfterLastSep headUptoLastSep
  rw [List.length_reverse, List.length_reverse]
  have h := congrArg List.length
    (List.takeWhile_append_dropWhile (p := fun ch => decide (ch ≠ '/')) (l := p.reverse))
  rw [List.length_append, List.length_reverse] at h
  exact h

lemma rstripSep_length_le (l : List Char) : (rstripSep l).length ≤ l.length := by
  unfold rstripSep
  rw [List.length_reverse]
  calc (l.reverse.dropWhile (fun ch => decide (ch = '/'))).length
      ≤ l.reverse.length := length_dropWhile_le _ _
    _ = l.length := List.length_reverse _

lemma splitHeadL_length_le (p : List Char) :
    (splitHeadL p).length ≤ (headUptoLastSep p).length := by
  unfold splitHeadL
  split
  · exact Nat.le_refl _
  · exact rstripSep_length_le _

lemma splitHeadL_length_lt (p : List Char) (h : tailAfterLastSep p ≠ []) :
    (splitHeadL p).length < p.length := by
  have h1 := tail_head_length p
  have h2 := splitHeadL_length_le p
  have h3 : 0 < (tailAfterLastSep p).length := List.length_pos.mpr h
  omega

lemma discoverGo_eq_find (isRepo : String → Bool) :
    ∀ n root, discoverGo isRepo n root = (probesGo n root).find? isRepo := by
  intro n
  induction n with
  | zero => intro root; rfl
  | succ n ih =>
    intro root
    by_cases hr : isRepo root
    · simp [discoverGo, probesGo, hr, List.find?]
    · by_cases ht : tailAfterLastSep root.data = []
      · simp [discoverGo, probesGo, hr, ht, List.find?]
      · simp [discoverGo, probesGo, hr, ht, List.find?, ih]

lemma string_mk_length (l : List Char) : (String.mk l).length = l.length := rfl

lemma discoverGo_fuel (isRepo : String → Bool) :
    ∀ n m root, root.length < n → root.length < m →
      discoverGo isRepo n root = discoverGo isRepo m root := by
  intro n
  induction n with
  | zero => intro m root hn; omega
  | succ n ih =>
    intro m root hn hm
    match m, hm with
    | m + 1, hm =>
      by_cases hr : isRepo root
      · simp [discoverGo, hr]
      · by_cases ht : tailAfterLastSep root.data = []
        · simp [discoverGo, hr, ht]
        · have hlt : (splitHeadL root.data).length < root.length :=
            splitHeadL_length_lt root.data ht
          have h1 : (String.mk (splitHeadL root.data)).length < n := by
            rw [string_mk_length]; omega
          have h2 : (String.mk (splitHeadL root.data)).length < m := by
            rw [string_mk_length]; omega
          simp only [discoverGo, hr, ht, if_false, if_neg, ite_false]
          simpa [hr, ht] using ih m ⟨splitHeadL root.data⟩ h1 h2

/-- C9: repository discovery probes the input path and then its ancestor
directories in order (`ancestorProbes`), returning the first directory
accepted as a version-control root and `none` when the walk reaches the
filesystem root (empty split tail) without finding one; the explicit
recursion bound is irrelevant for any sufficient fuel (the loop terminates);
and the memoised wrapper computes the result for a distinct input path at
most once: the result of the first lookup is the walk's result, and a
repeated lookup is a cache hit that performs zero walks and leaves the cache
unchanged. -/
theorem discover_repository_walk_and_cache (isRepo : String → Bool)
    (entries : List (String × Option String)) (p : String)
    (hcache : cacheFind entries p = none ∨
      cacheFind entries p = some (discover_repository isRepo p)) :
    discover_repository isRepo p = (ancestorProbes p).find? isRepo ∧
    (∀ n, p.length < n → discoverGo isRepo n p = discover_repository isRepo p) ∧
    (cachedDiscover isRepo entries p).1 = discover_repository isRepo p ∧
    cachedDiscover isRepo (cachedDiscover isRepo entries p).2.1 p =
      ((cachedDiscover isRepo entries p).1, (cachedDiscover isRepo entries p).2.1, 0) := by
  refine ⟨discoverGo_eq_find isRepo _ p, ?_, ?_⟩
  · intro n hn
    exact discoverGo_fuel isRepo n (p.length + 1) p hn (Nat.lt_succ_self _)
  · rcases hcache with hmiss | hhit
    · constructor
      · simp [cachedDiscover, hmiss]
      · simp [cachedDiscover, hmiss, cacheFind]
    · constructor
      · simp [cachedDiscover, hhit]
      · simp [cachedDiscover, hhit]

theorem discover_repository_walk_and_cache_witness :
    discover_repository repoProbe "/r/a" = (ancestorProbes "/r/a").find? repoProbe ∧
    (∀ n, "/r/a".length < n → discoverGo repoProbe n "/r/a" = discover_repository repoProbe "/r/a") ∧
    (cachedDiscover repoProbe [] "/r/a").1 = discover_repository repoProbe "/r/a" ∧
    cachedDiscover repoProbe (cachedDiscover repoProbe [] "/r/a").2.1 "/r/a" =
      ((cachedDiscover repoProbe [] "/r/a").1, (cachedDiscover repoProbe [] "/r/a").2.1, 0) :=
  discover_repository_walk_and_cache repoProbe [] "/r/a" (Or.inl rfl)


/-! ### Frame lemmas for the chain-build state -/

lemma updateRev_length (l : List Content) (i : Nat) (f : Content → Content) :
    (updateRev l i f).length = l.length := by
  unfold updateRev
  cases h : l[i]? with
  | none => rfl
  | some p => exact List.length_set l i (f p)

lemma getElem?_lt_length {α : Type} {l : List α} {i : Nat} {p : α} (h : l[i]? = some p) :
    i < l.length := by
  by_contra hc
  push_neg at hc
  rw [List.getElem?_eq_none hc] at h
  cases h

lemma updateRev_getElem? (l : List Content) (i : Nat) (f : Content → Content) (j : Nat) :
    (updateRev l i f)[j]? = if j = i then (l[j]?).map f else l[j]? := by
  unfold updateRev
  cases h : l[i]? with
  | none =>
    by_cases hji : j = i
    · subst hji; rw [if_pos rfl, h]; rfl
    · rw [if_neg hji]
  | some p =>
    have hi : i < l.length := getElem?_lt_length h
    rw [List.getElem?_set]
    by_cases hji : j = i
    · subst hji
      rw [if_pos rfl, if_pos rfl, if_pos hi, h]
      rfl
    · have hij : ¬ i = j := fun hh => hji hh.symm
      rw [if_neg hij, if_neg hji]

lemma map_git_updateRev (l : List Content) (i : Nat) (f : Content → Content)
    (hf : ∀ r, (f r).git? = r.git?) (j : Nat) :
    ((updateRev l i f)[j]?).map (fun r => r.git?) = (l[j]?).map (fun r => r.git?) := by
  rw [updateRev_getElem?]
  by_cases hji : j = i
  · rw [if_pos hji]; cases l[j]? <;> simp [hf]
  · rw [if_neg hji]

lemma setDateAt_rev (created : Int) (i : Nat) (s : ChainState) :
    setDateAt created (.rev i) s =
      { s with revs := updateRev s.revs i (fun r => { r with date? := some created }) } := rfl

lemma backPatch_live (created : Int) (prev : Option Nat) (s : ChainState) :
    (backPatch created prev s).live = s.live := by
  unfold backPatch
  cases prev <;> rfl

lemma backPatch_length (created : Int) (prev : Option Nat) (s : ChainState) :
    (backPatch created prev s).revs.length = s.revs.length := by
  unfold backPatch
  cases prev with
  | none => rfl
  | some j => exact updateRev_length _ _ _

lemma backPatch_git (created : Int) (prev : Option Nat) (s : ChainState) (j : Nat) :
    ((backPatch created prev s).revs[j]?).map (fun r => r.git?) =
      (s.revs[j]?).map (fun r => r.git?) := by
  unfold backPatch
  cases prev with
  | none => rfl
  | some k =>
    exact map_git_updateRev s.revs k (fun r => { r with modified? := some created })
      (fun r => rfl) j

lemma applyChainedInit_rev_live (g : GitInfo) (i : Nat) (s : ChainState) :
    (applyChainedInit g (.rev i) s).live = s.live := by
  unfold applyChainedInit
  rw [backPatch_live, setDateAt_rev]

lemma applyChainedInit_rev_length (g : GitInfo) (i : Nat) (s : ChainState) :
    (applyChainedInit g (.rev i) s).revs.length = s.revs.length := by
  unfold applyChainedInit
  rw [backPatch_length, setDateAt_rev]
  exact updateRev_length _ _ _

lemma applyChainedInit_rev_git (g : GitInfo) (i : Nat) (s : ChainState) (j : Nat) :
    ((applyChainedInit g (.rev i) s).revs[j]?).map (fun r => r.git?) =
      (s.revs[j]?).map (fun r => r.git?) := by
  unfold applyChainedInit
  rw [backPatch_git, setDateAt_rev]
  exact map_git_updateRev s.revs i
    (fun r => { r with date? := some g.commit.authored_date }) (fun r => rfl) j

lemma signalSend_rev_cases (env : Env) (i : Nat) (s : ChainState) :
    signalSend env (.rev i) s = s ∨
      ∃ g, signalSend env (.rev i) s = applyChainedInit g (.rev i) s := by
  unfold signalSend
  split
  · exact Or.inl rfl
  · split
    · exact Or.inl rfl
    · split
      · exact Or.inl rfl
      · split
        · exact Or.inl rfl
        · split
          · exact Or.inr ⟨_, rfl⟩
          · exact Or.inl rfl

lemma signalSend_rev_live (env : Env) (i : Nat) (s : ChainState) :
    (signalSend env (.rev i) s).live = s.live := by
  rcases signalSend_rev_cases env i s with h | ⟨g, h⟩
  · rw [h]
  · rw [h]; exact applyChainedInit_rev_live g i s

lemma signalSend_rev_length (env : Env) (i : Nat) (s : ChainState) :
    (signalSend env (.rev i) s).revs.length = s.revs.length := by
  rcases signalSend_rev_cases env i s with h | ⟨g, h⟩
  · rw [h]
  · rw [h]; exact applyChainedInit_rev_length g i s

lemma signalSend_rev_git (env : Env) (i : Nat) (s : ChainState) (j : Nat) :
    ((signalSend env (.rev i) s).revs[j]?).map (fun r => r.git?) =
      (s.revs[j]?).map (fun r => r.git?) := by
  rcases signalSend_rev_cases env i s with h | ⟨g, h⟩
  · rw [h]
  · rw [h]; exact applyChainedInit_rev_git g i s j

lemma linkStep_live (env : Env) (fp : String) (count : Nat) (commit : Commit) (i : Nat)
    (s : ChainState) : (linkStep env fp count commit i s).live = s.live := by
  unfold linkStep
  rw [signalSend_rev_live]

lemma linkStep_length (env : Env) (fp : String) (count : Nat) (commit : Commit) (i : Nat)
    (s : ChainState) : (linkStep env fp count commit i s).revs.length = s.revs.length := by
  unfold linkStep
  rw [signalSend_rev_length]
  exact updateRev_length _ _ _

lemma linkStep_git (env : Env) (fp : String) (count : Nat) (commit : Commit) (i : Nat)
    (s : ChainState) (j : Nat) :
    ((linkStep env fp count commit i s).revs[j]?).map (fun r => r.git?) =
      if j = i then (s.revs[j]?).map (fun _ => some (mkLinkGit fp count commit i))
      else (s.revs[j]?).map (fun r => r.git?) := by
  unfold linkStep
  rw [signalSend_rev_git]
  show ((updateRev s.revs i _)[j]?).map _ = _
  rw [updateRev_getElem?]
  by_cases hji : j = i
  · rw [if_pos hji, if_pos hji]
    cases s.revs[j]? <;> rfl
  · rw [if_neg hji, if_neg hji]

lemma map_const_getElem?_eq {l l2 : List Content} (h : l.length = l2.length) (j : Nat)
    (x : Option GitInfo) :
    (l[j]?).map (fun _ : Content => x) = (l2[j]?).map (fun _ : Content => x) := by
  by_cases hj : j < l.length
  · rw [List.getElem?_eq_getElem hj, List.getElem?_eq_getElem (by omega : j < l2.length)]
    rfl
  · rw [List.getElem?_eq_none (by omega), List.getElem?_eq_none (by omega)]

lemma linkFoldF_live (env : Env) (fp : String) (commits : List Commit) (count : Nat)
    (s : ChainState) (i : Nat) :
    (linkFoldF env fp commits count s i).live = s.live := by
  unfold linkFoldF
  cases h : commits[i]? with
  | none => rfl
  | some commit => exact linkStep_live env fp count commit i s

lemma linkFoldF_length (env : Env) (fp : String) (commits : List Commit) (count : Nat)
    (s : ChainState) (i : Nat) :
    (linkFoldF env fp commits count s i).revs.length = s.revs.length := by
  unfold linkFoldF
  cases h : commits[i]? with
  | none => rfl
  | some commit => exact linkStep_length env fp count commit i s

lemma foldl_linkFoldF_live (env : Env) (fp : String) (commits : List Commit) (count : Nat) :
    ∀ (idxs : List Nat) (s : ChainState),
      (idxs.foldl (linkFoldF env fp commits count) s).live = s.live := by
  intro idxs
  induction idxs with
  | nil => intro s; rfl
  | cons i tl ih => intro s; rw [List.foldl_cons, ih, linkFoldF_live]

lemma foldl_linkFoldF_length (env : Env) (fp : String) (commits : List Commit) (count : Nat) :
    ∀ (idxs : List Nat) (s : ChainState),
      (idxs.foldl (linkFoldF env fp commits count) s).revs.length = s.revs.length := by
  intro idxs
  induction idxs with
  | nil => intro s; rfl
  | cons i tl ih => intro s; rw [List.foldl_cons, ih, linkFoldF_length]

lemma foldl_linkFoldF_git (env : Env) (fp : String) (commits : List Commit) (count : Nat)
    (j : Nat) (cm : Commit) (hcm : commits[j]? = some cm) :
    ∀ (idxs : List Nat) (s : ChainState),
      ((idxs.foldl (linkFoldF env fp commits count) s).revs[j]?).map (fun r => r.git?) =
        if j ∈ idxs then (s.revs[j]?).map (fun _ => some (mkLinkGit fp count cm j))
        else (s.revs[j]?).map (fun r => r.git?) := by
  intro idxs
  induction idxs with
  | nil => intro s; simp
  | cons i tl ih =>
    intro s
    rw [List.foldl_cons, ih]
    by_cases hmem : j ∈ tl
    · rw [if_pos hmem, if_pos (List.mem_cons_of_mem i hmem)]
      exact map_const_getElem?_eq (linkFoldF_length env fp commits count s i) j _
    · rw [if_neg hmem]
      by_cases hji : j = i
      · subst hji
        rw [if_pos (List.mem_cons_self j tl)]
        unfold linkFoldF
        rw [hcm, linkStep_git, if_pos rfl]
      · have hnot : j ∉ i :: tl := by
          intro hmem2
          rcases List.mem_cons.mp hmem2 with h1 | h2
          · exact hji h1
          · exact hmem h2
        rw [if_neg hnot]
        unfold linkFoldF
        cases h : commits[i]? with
        | none => rfl
        | some c2 => rw [linkStep_git, if_neg hji]

lemma linkAll_live (env : Env) (fp : String) (commits : List Commit) (count : Nat)
    (s : ChainState) : (linkAll env fp commits count s).live = s.live :=
  foldl_linkFoldF_live env fp commits count _ s

lemma linkAll_length (env : Env) (fp : String) (commits : List Commit) (count : Nat)
    (s : ChainState) : (linkAll env fp commits count s).revs.length = s.revs.length :=
  foldl_linkFoldF_length env fp commits count _ s

lemma linkAll_git (env : Env) (fp : String) (commits : List Commit) (count : Nat)
    (s : ChainState) (j : Nat) (cm : Commit) (hcm : commits[j]? = some cm) (hj : j < count) :
    ((linkAll env fp commits count s).revs[j]?).map (fun r => r.git?) =
      (s.revs[j]?).map (fun _ => some (mkLinkGit fp count cm j)) := by
  unfold linkAll
  rw [foldl_linkFoldF_git env fp commits count j cm hcm, if_pos (List.mem_range.mpr hj)]

lemma materializeAll_length (env : Env) (fp : String) (live : Content) :
    ∀ (cs : List Commit) (rs : List Content),
      materializeAll env fp live cs = .ok rs → rs.length = cs.length := by
  intro cs
  induction cs with
  | nil =>
    intro rs h
    unfold materializeAll at h
    cases h
    rfl
  | cons c tl ih =>
    intro rs h
    unfold materializeAll at h
    cases hm : materializeRevision env fp live c with
    | error e => rw [hm] at h; cases h
    | ok r =>
      rw [hm] at h
      cases ht : materializeAll env fp live tl with
      | error e => rw [ht] at h; cases h
      | ok rs2 =>
        rw [ht] at h
        cases h
        simp [ih rs2 ht]

/-! ### Date-inference and chained-branch field lemmas -/

lemma inferDate_date? (first : Commit) (c : Content) :
    (inferDate first c).date? = if c.date? = none then some first.authored_date else c.date? := by
  unfold inferDate
  split <;> rfl

lemma inferDate_modified? (first : Commit) (c : Content) :
    (inferDate first c).modified? = c.modified? := by
  unfold inferDate
  split <;> rfl

lemma inferDate_git? (first : Commit) (c : Content) :
    (inferDate first c).git? = c.git? := by
  unfold inferDate
  split <;> rfl

lemma inferModified_date? (first latest : Commit) (c : Content) :
    (inferModified first latest c).date? = c.date? := by
  unfold inferModified
  split <;> rfl

lemma inferModified_modified? (first latest : Commit) (c : Content) :
    (inferModified first latest c).modified? =
      if first ≠ latest ∧ c.modified? = none then some latest.authored_date
      else c.modified? := by
  unfold inferModified
  split <;> rfl

lemma inferModified_git? (first latest : Commit) (c : Content) :
    (inferModified first latest c).git? = c.git? := by
  unfold inferModified
  split <;> rfl

lemma inferDates_date? (first latest : Commit) (c : Content) :
    (inferDates first latest c).date? =
      if c.date? = none then some first.authored_date else c.date? := by
  unfold inferDates
  rw [inferModified_date?, inferDate_date?]

lemma inferDates_modified? (first latest : Commit) (c : Content) :
    (inferDates first latest c).modified? =
      if first ≠ latest ∧ c.modified? = none then some latest.authored_date
      else c.modified? := by
  unfold inferDates
  rw [inferModified_modified?, inferDate_modified?]

lemma inferDates_git? (first latest : Commit) (c : Content) :
    (inferDates first latest c).git? = c.git? := by
  unfold inferDates
  rw [inferModified_git?, inferDate_git?]

lemma setDateAt_rev_getElem? (created : Int) (i : Nat) (s : ChainState) (j : Nat) :
    (setDateAt created (.rev i) s).revs[j]? =
      if j = i then (s.revs[j]?).map (fun r => { r with date? := some created })
      else s.revs[j]? := by
  rw [setDateAt_rev]
  exact updateRev_getElem? s.revs i _ j

lemma backPatch_getElem? (created : Int) (prev : Option Nat) (s : ChainState) (j : Nat) :
    (backPatch created prev s).revs[j]? =
      if prev = some j then
        (s.revs[j]?).map (fun r => { r with modified? := some created })
      else s.revs[j]? := by
  unfold backPatch
  cases prev with
  | none => simp
  | some k =>
    show (updateRev s.revs k _)[j]? = _
    rw [updateRev_getElem?]
    by_cases hjk : j = k
    · subst hjk
      rw [if_pos rfl, if_pos rfl]
    · rw [if_neg hjk, if_neg (fun h => hjk (Option.some.injEq k j ▸ h).symm)]

/-! ### Unfolding the hook for each reachable branch -/

lemma run_fresh (env : Env) (s : ChainState) (root : String) (first : Commit)
    (rest : List Commit)
    (hstat : s.live.isStatic = false) (hgit : s.live.git? = none)
    (hd : discover_repository env.isRepo (posixDirname s.live.source_path) = some root)
    (hcm : (env.iterCommits root (make_repository_file_path env root s.live.source_path)).reverse
      = first :: rest) :
    on_content_object_init env .live s =
      buildFresh env (make_repository_file_path env root s.live.source_path)
        first ((first :: rest).getLastD first) (first :: rest) s := by
  unfold on_content_object_init
  simp [getAt, hstat, hd, hcm, hgit]

lemma run_chained (env : Env) (s : ChainState) (t : Ref) (c : Content) (g : GitInfo)
    (root : String) (first : Commit) (rest : List Commit)
    (hc : getAt s t = some c) (hstat : c.isStatic = false) (hg : c.git? = some g)
    (hd : discover_repository env.isRepo (posixDirname c.source_path) = some root)
    (hcm : (env.iterCommits root (make_repository_file_path env root c.source_path)).reverse
      = first :: rest) :
    on_content_object_init env t s = .ok (applyChainedInit g t s) := by
  unfold on_content_object_init
  rw [hc]
  simp [hstat, hd, hcm, hg]

/-! ### buildFresh case analysis -/

lemma attachLiveGit_revs (fp : String) (latest : Commit) (count : Nat) (s2 : ChainState) :
    (attachLiveGit fp latest count s2).revs = s2.revs := rfl

lemma attachLiveGit_live_git? (fp : String) (latest : Commit) (count : Nat) (s2 : ChainState) :
    (attachLiveGit fp latest count s2).live.git? = some
      { commit := latest
        file_path := fp
        revisions := List.range count
        previous_revision := if count > 1 then some (count - 2) else none
        next_revision := none } := rfl

lemma attachLiveGit_live_date? (fp : String) (latest : Commit) (count : Nat) (s2 : ChainState) :
    (attachLiveGit fp latest count s2).live.date? = s2.live.date? := rfl

lemma attachLiveGit_live_modified? (fp : String) (latest : Commit) (count : Nat)
    (s2 : ChainState) :
    (attachLiveGit fp latest count s2).live.modified? = s2.live.modified? := rfl

lemma buildFresh_error (env : Env) (fp : String) (first latest : Commit)
    (commits : List Commit) (s : ChainState) (e : BuildError)
    (h : materializeAll env fp (inferDates first latest s.live) commits = .error e) :
    buildFresh env fp first latest commits s =
      .error e { s with live := inferDates first latest s.live } := by
  unfold buildFresh
  rw [h]

lemma buildFresh_ok (env : Env) (fp : String) (first latest : Commit)
    (commits : List Commit) (s : ChainState) (revs : List Content)
    (h : materializeAll env fp (inferDates first latest s.live) commits = .ok revs) :
    buildFresh env fp first latest commits s =
      .ok (attachLiveGit fp latest revs.length
        (linkAll env fp commits revs.length
          { live := inferDates first latest s.live, revs := revs })) := by
  unfold buildFresh
  rw [h]

lemma getLast?_eq_getLastD {α : Type} (a : α) (l : List α) (h : l ≠ []) :
    l.getLast? = some (l.getLastD a) := by
  cases hl : l.getLast? with
  | none => exact absurd (List.getLast?_eq_none_iff.mp hl) h
  | some x => rw [List.getLastD_eq_getLast?, hl]; rfl

/-! ### C10, C7: skip branches -/

/-- C10: for a content object that is an instance of Pelican's `Static`
class, the hook returns at once (lines 32-33): no repository lookup, no
chain attachment, no date mutation — the state is returned unchanged, for
every environment, in particular when the file is tracked with a non-empty
history. -/
theorem static_content_skipped (env : Env) (t : Ref) (s : ChainState) (c : Content)
    (hc : getAt s t = some c) (hstat : c.isStatic = true) :
    on_content_object_init env t s = .ok s := by
  unfold on_content_object_init
  rw [hc]
  simp [hstat]

/-- C7: when no version-control root encloses the document's path, or the
tracked path has an empty commit history (`commitsFor env c = []` covers
exactly these two cases), the hook returns without raising and without
mutating anything: no chain, no dates, no revisions (lines 36-38 and
46-47). -/
theorem untracked_path_untouched (env : Env) (t : Ref) (s : ChainState) (c : Content)
    (hc : getAt s t = some c) (hcm : commitsFor env c = []) :
    on_content_object_init env t s = .ok s := by
  unfold on_content_object_init
  rw [hc]
  by_cases hstat : c.isStatic
  · simp [hstat]
  · cases hd : discover_repository env.isRepo (posixDirname c.source_path) with
    | none => simp [hstat, hd]
    | some root =>
      have hrev : (env.iterCommits root (make_repository_file_path env root c.source_path)).reverse
          = [] := by
        unfold commitsFor at hcm
        rw [hd] at hcm
        exact hcm
      simp [hstat, hd, hrev]

/-! ### C3: re-initialising an already-chained object -/

/-- C3: when the init signal fires again for an object that already carries
a `git` tuple (in the plugin's flow: a revision object, re-sent on line 126),
the hook sets that object's `date` unconditionally to its anchor commit's
authored timestamp, sets the previous sibling's `modified` to the same value
when a previous revision exists, and mutates nothing else: the live document,
every other revision, all `git` tuples (hence the shared `revisions`
sequence) and every other field of the touched objects are unchanged, and no
chain construction happens (lines 53-70). -/
theorem rechained_object_frame (env : Env) (s : ChainState) (i : Nat) (c : Content)
    (g : GitInfo) (root : String) (first : Commit) (rest : List Commit)
    (hc : s.revs[i]? = some c) (hstat : c.isStatic = false) (hg : c.git? = some g)
    (hd : discover_repository env.isRepo (posixDirname c.source_path) = some root)
    (hcm : (env.iterCommits root (make_repository_file_path env root c.source_path)).reverse
      = first :: rest)
    (hsep : g.previous_revision ≠ some i) :
    ∃ s2, on_content_object_init env (.rev i) s = .ok s2 ∧
      s2.live = s.live ∧
      s2.revs.length = s.revs.length ∧
      s2.revs[i]? = some { c with date? := some g.commit.authored_date } ∧
      (∀ j, g.previous_revision = some j →
        s2.revs[j]? = (s.revs[j]?).map
          (fun p => { p with modified? := some g.commit.authored_date })) ∧
      (∀ k, k ≠ i → g.previous_revision ≠ some k → s2.revs[k]? = s.revs[k]?) := by
  have hrun : on_content_object_init env (.rev i) s = .ok (applyChainedInit g (.rev i) s) :=
    run_chained env s (.rev i) c g root first rest hc hstat hg hd hcm
  refine ⟨applyChainedInit g (.rev i) s, hrun, applyChainedInit_rev_live g i s,
    applyChainedInit_rev_length g i s, ?_, ?_, ?_⟩
  · show (backPatch _ _ (setDateAt _ (.rev i) s)).revs[i]? = _
    rw [backPatch_getElem?, if_neg hsep, setDateAt_rev_getElem?, if_pos rfl, hc]
    rfl
  · intro j hj
    show (backPatch _ _ (setDateAt _ (.rev i) s)).revs[j]? = _
    have hji : ¬ j = i := by
      intro h
      exact hsep (h ▸ hj)
    rw [backPatch_getElem?, if_pos hj, setDateAt_rev_getElem?, if_neg hji]
  · intro k hki hkp
    show (backPatch _ _ (setDateAt _ (.rev i) s)).revs[k]? = _
    rw [backPatch_getElem?, if_neg hkp, setDateAt_rev_getElem?, if_neg hki]

/-! ### C4: live-document date inference -/

/-- C4: for a fresh live document (no `git` attribute yet) with a non-empty
commit list, the final state's `date` is the first (oldest) commit's authored
timestamp exactly when the host pipeline had set no date, and `modified` is
the latest commit's authored timestamp exactly when the first and latest
commits differ and no modified value was set; values set by the host are
never overwritten (lines 72-81).  The equations hold whether or not the rest
of the build succeeds (the date mutations precede materialization). -/
theorem live_dates_only_inferred (env : Env) (s : ChainState) (root : String)
    (commits : List Commit) (first latest : Commit)
    (hstat : s.live.isStatic = false) (hgit : s.live.git? = none)
    (hd : discover_repository env.isRepo (posixDirname s.live.source_path) = some root)
    (hcm : (env.iterCommits root (make_repository_file_path env root s.live.source_path)).reverse
      = commits)
    (hfirst : commits.head? = some first) (hlast : commits.getLast? = some latest) :
    (on_content_object_init env .live s).state.live.date? =
      (if s.live.date? = none then some first.authored_date else s.live.date?) ∧
    (on_content_object_init env .live s).state.live.modified? =
      (if first ≠ latest ∧ s.live.modified? = none then some latest.authored_date
       else s.live.modified?) := by
  obtain ⟨rest, rfl⟩ : ∃ r, commits = first :: r := by
    cases commits with
    | nil => cases hfirst
    | cons f r =>
      rw [List.head?_cons] at hfirst
      injection hfirst with hf
      exact ⟨r, by rw [hf]⟩
  have hlatest : (first :: rest).getLastD first = latest := by
    rw [List.getLastD_eq_getLast?, hlast]
    rfl
  rw [run_fresh env s root first rest hstat hgit hd hcm, hlatest]
  cases hmat : materializeAll env (make_repository_file_path env root s.live.source_path)
      (inferDates first latest s.live) (first :: rest) with
  | error e =>
    rw [buildFresh_error env _ first latest _ s e hmat]
    constructor
    · show (inferDates first latest s.live).date? = _
      rw [inferDates_date?]
    · show (inferDates first latest s.live).modified? = _
      rw [inferDates_modified?]
  | ok revs =>
    rw [buildFresh_ok env _ first latest _ s revs hmat]
    constructor
    · show (attachLiveGit _ _ _ _).live.date? = _
      rw [attachLiveGit_live_date?, linkAll_live]
      show (inferDates first latest s.live).date? = _
      rw [inferDates_date?]
    · show (attachLiveGit _ _ _ _).live.modified? = _
      rw [attachLiveGit_live_modified?, linkAll_live]
      show (inferDates first latest s.live).modified? = _
      rw [inferDates_modified?]

/-! ### C1, C2: the links of a freshly built chain -/

/-- C1: after a successful fresh chain build over a non-empty commit list of
length N, there are exactly N revisions, and the revision at index `i`
carries `previous_revision = revisions[i-1]` (index `i - 1`) when `i > 0` and
none otherwise, and `next_revision` pointing at the live document when
`i = N - 2` (Python's signed arithmetic, so never for N = 1), at revision
`i + 1` when `i < N - 1`, and at nothing for the last revision; in particular
for N = 1 the sole revision has no previous and no next (lines 112-123). -/
theorem revision_chain_links (env : Env) (s : ChainState) (root : String)
    (commits : List Commit)
    (hstat : s.live.isStatic = false) (hgit : s.live.git? = none)
    (hd : discover_repository env.isRepo (posixDirname s.live.source_path) = some root)
    (hcm : (env.iterCommits root (make_repository_file_path env root s.live.source_path)).reverse
      = commits)
    (hne : commits ≠ [])
    (hok : (on_content_object_init env .live s).isOk = true) :
    (on_content_object_init env .live s).state.revs.length = commits.length ∧
    ∀ i, i < commits.length →
      ∃ r g, (on_content_object_init env .live s).state.revs[i]? = some r ∧
        r.git? = some g ∧
        g.previous_revision = (if i > 0 then some (i - 1) else none) ∧
        g.next_revision =
          (if (i : Int) = (commits.length : Int) - 2 then some NextRef.content
           else if (i : Int) < (commits.length : Int) - 1 then some (NextRef.rev (i + 1))
           else none) := by
  obtain ⟨first, rest, rfl⟩ : ∃ f r, commits = f :: r := by
    cases commits with
    | nil => exact absurd rfl hne
    | cons f r => exact ⟨f, r, rfl⟩
  rw [run_fresh env s root first rest hstat hgit hd hcm] at hok ⊢
  cases hmat : materializeAll env (make_repository_file_path env root s.live.source_path)
      (inferDates first ((first :: rest).getLastD first) s.live) (first :: rest) with
  | error e =>
    rw [buildFresh_error env _ first _ _ s e hmat] at hok
    cases hok
  | ok revs =>
    rw [buildFresh_ok env _ first _ _ s revs hmat]
    have hlen : revs.length = (first :: rest).length :=
      materializeAll_length env _ _ (first :: rest) revs hmat
    simp only [HookResult.state, attachLiveGit_revs]
    constructor
    · rw [linkAll_length]
      exact hlen
    · intro i hi
      have hi2 : i < revs.length := by rw [hlen]; exact hi
      have hcmi : (first :: rest)[i]? = some ((first :: rest)[i]) :=
        List.getElem?_eq_getElem hi
      have hgit2 := linkAll_git env (make_repository_file_path env root s.live.source_path)
        (first :: rest) revs.length
        { live := inferDates first ((first :: rest).getLastD first) s.live, revs := revs }
        i ((first :: rest)[i]) hcmi hi2
      have hrevsi : revs[i]? = some (revs[i]) := List.getElem?_eq_getElem hi2
      have h3 : ((linkAll env (make_repository_file_path env root s.live.source_path)
          (first :: rest) revs.length
          { live := inferDates first ((first :: rest).getLastD first) s.live,
            revs := revs }).revs[i]?).map (fun r => r.git?) =
          some (some (mkLinkGit (make_repository_file_path env root s.live.source_path)
            revs.length ((first :: rest)[i]) i)) := by
        rw [hgit2]
        show (revs[i]?).map _ = _
        rw [hrevsi]
        rfl
      obtain ⟨r, hr, hrg⟩ := Option.map_eq_some'.mp h3
      refine ⟨r, mkLinkGit (make_repository_file_path env root s.live.source_path)
        revs.length ((first :: rest)[i]) i, hr, hrg, rfl, ?_⟩
      show (if (i : Int) = (revs.length : Int) - 2 then some NextRef.content
        else if (i : Int) < (revs.length : Int) - 1 then some (NextRef.rev (i + 1))
        else none) = _
      rw [hlen]

/-- C2: after a successful fresh chain build over a non-empty commit list,
the live document's `git` tuple anchors at the latest (newest) commit — the
last of the chronological list, equivalently the head of the git log — has
`previous_revision = revisions[-2]` (index N - 2) exactly when more than one
revision exists, and has no `next_revision` (lines 128-130). -/
theorem live_chain_terminal (env : Env) (s : ChainState) (root : String)
    (commits : List Commit) (latest : Commit)
    (hstat : s.live.isStatic = false) (hgit : s.live.git? = none)
    (hd : discover_repository env.isRepo (posixDirname s.live.source_path) = some root)
    (hcm : (env.iterCommits root (make_repository_file_path env root s.live.source_path)).reverse
      = commits)
    (hne : commits ≠ [])
    (hlast : commits.getLast? = some latest)
    (hok : (on_content_object_init env .live s).isOk = true) :
    ∃ g, (on_content_object_init env .live s).state.live.git? = some g ∧
      g.commit = latest ∧
      (env.iterCommits root (make_repository_file_path env root s.live.source_path)).head?
        = some latest ∧
      g.previous_revision =
        (if 1 < commits.length then some (commits.length - 2) else none) ∧
      g.next_revision = none := by
  obtain ⟨first, rest, rfl⟩ : ∃ f r, commits = f :: r := by
    cases commits with
    | nil => exact absurd rfl hne
    | cons f r => exact ⟨f, r, rfl⟩
  have hlatest : (first :: rest).getLastD first = latest := by
    rw [List.getLastD_eq_getLast?, hlast]
    rfl
  rw [run_fresh env s root first rest hstat hgit hd hcm, hlatest] at hok ⊢
  cases hmat : materializeAll env (make_repository_file_path env root s.live.source_path)
      (inferDates first latest s.live) (first :: rest) with
  | error e =>
    rw [buildFresh_error env _ first latest _ s e hmat] at hok
    cases hok
  | ok revs =>
    rw [buildFresh_ok env _ first latest _ s revs hmat]
    have hlen : revs.length = (first :: rest).length :=
      materializeAll_length env _ _ (first :: rest) revs hmat
    simp only [HookResult.state]
    refine ⟨_, attachLiveGit_live_git? _ _ _ _, rfl, ?_, ?_, rfl⟩
    · have hiter : env.iterCommits root (make_repository_file_path env root s.live.source_path)
          = (first :: rest).reverse := by
        rw [← hcm, List.reverse_reverse]
      rw [hiter, List.head?_reverse]
      exact hlast
    · show (if revs.length > 1 then some (revs.length - 2) else none) = _
      rw [hlen]

/-! ### C8: materialization failures -/

lemma materializeRevision_error_of_fail (env : Env) (fp : String) (live : Content)
    (commit : Commit)
    (h : env.blobExists commit fp = false ∨
      ∃ msg, env.readFile (revisionFormat fp) commit = Except.error msg) :
    ∃ e, materializeRevision env fp live commit = .error e := by
  unfold materializeRevision
  rcases h with hb | ⟨msg, hr⟩
  · rw [if_pos hb]
    exact ⟨_, rfl⟩
  · by_cases hb : env.blobExists commit fp = false
    · rw [if_pos hb]
      exact ⟨_, rfl⟩
    · rw [if_neg hb, hr]
      exact ⟨_, rfl⟩

lemma materializeAll_error_of_exists (env : Env) (fp : String) (live : Content) :
    ∀ (cs : List Commit),
      (∃ cm ∈ cs, ∃ e, materializeRevision env fp live cm = .error e) →
      ∃ e, materializeAll env fp live cs = .error e := by
  intro cs
  induction cs with
  | nil =>
    rintro ⟨cm, hmem, _⟩
    cases hmem
  | cons c tl ih =>
    rintro ⟨cm, hmem, e, he⟩
    unfold materializeAll
    cases hm : materializeRevision env fp live c with
    | error e2 => exact ⟨e2, rfl⟩
    | ok r =>
      have hcm : cm ∈ tl := by
        rcases List.mem_cons.mp hmem with h1 | h2
        · subst h1
          rw [hm] at he
          cases he
        · exact h2
      obtain ⟨e3, he3⟩ := ih ⟨cm, hcm, e, he⟩
      rw [he3]
      exact ⟨e3, rfl⟩

/-- C8: a materialization failure — the blob missing from some commit's tree,
or the external reader rejecting the extracted content — makes the whole
chain build of that document raise (the hook returns an error, surfaced to
the caller rather than swallowed), leaving that document without any chain
(`git` is never attached, no revisions are registered); and the host loop,
modelled from the spec, processes every document independently, so one
document's failure does not change how any other document is processed. -/
theorem materialization_failure_surfaced (env : Env) (s : ChainState) (root : String)
    (commits : List Commit)
    (hstat : s.live.isStatic = false) (hgit : s.live.git? = none)
    (hd : discover_repository env.isRepo (posixDirname s.live.source_path) = some root)
    (hcm : (env.iterCommits root (make_repository_file_path env root s.live.source_path)).reverse
      = commits)
    (hne : commits ≠ [])
    (hfail : ∃ cm ∈ commits,
      env.blobExists cm (make_repository_file_path env root s.live.source_path) = false ∨
      ∃ msg, env.readFile
        (revisionFormat (make_repository_file_path env root s.live.source_path)) cm
        = Except.error msg) :
    (∃ e s2, on_content_object_init env .live s = .error e s2 ∧
      s2.live.git? = none ∧ s2.revs = s.revs) ∧
    (∀ (docs : List ChainState) (k : Nat),
      (processDocuments env docs)[k]? =
        (docs[k]?).map (fun d => on_content_object_init env Ref.live d)) := by
  constructor
  · obtain ⟨first, rest, rfl⟩ : ∃ f r, commits = f :: r := by
      cases commits with
      | nil => exact absurd rfl hne
      | cons f r => exact ⟨f, r, rfl⟩
    rw [run_fresh env s root first rest hstat hgit hd hcm]
    have hex : ∃ cm ∈ (first :: rest), ∃ e, materializeRevision env
        (make_repository_file_path env root s.live.source_path)
        (inferDates first ((first :: rest).getLastD first) s.live) cm = .error e := by
      obtain ⟨cm, hmem, hcase⟩ := hfail
      exact ⟨cm, hmem, materializeRevision_error_of_fail env _ _ cm hcase⟩
    obtain ⟨e, he⟩ := materializeAll_error_of_exists env _ _ (first :: rest) hex
    rw [buildFresh_error env _ first _ _ s e he]
    refine ⟨e, _, rfl, ?_, rfl⟩
    show (inferDates first _ s.live).git? = none
    rw [inferDates_git?]
    exact hgit
  · intro docs k
    unfold processDocuments
    rw [List.getElem?_map]

/-! ### C5, C6: revision output paths -/

lemma posixJoin2_empty_right (a : String) :
    posixJoin2 a "" =
      if a.data = [] ∨ a.data.getLast? = some '/' then a else ⟨a.data ++ ['/']⟩ := by
  unfold posixJoin2
  have hh : ¬ (("" : String).data.head? = some '/') := by
    intro h
    cases h
  rw [if_neg hh]
  by_cases hc : a.data = [] ∨ a.data.getLast? = some '/'
  · rw [if_pos hc, if_pos hc]
    show String.mk (a.data ++ []) = a
    rw [List.append_nil]
  · rw [if_neg hc, if_neg hc]

lemma posixJoin2_empty_assoc (a x : String) :
    posixJoin2 (posixJoin2 a "") x = posixJoin2 a x := by
  rw [posixJoin2_empty_right]
  by_cases hc : a.data = [] ∨ a.data.getLast? = some '/'
  · rw [if_pos hc]
  · rw [if_neg hc]
    push_neg at hc
    unfold posixJoin2
    by_cases hx : x.data.head? = some '/'
    · rw [if_pos hx, if_pos hx]
    · rw [if_neg hx, if_neg hx]
      have hlast : (String.mk (a.data ++ ['/'])).data.getLast? = some '/' :=
        List.getLast?_concat a.data
      rw [if_pos (Or.inr hlast), if_neg (by push_neg; exact hc)]
      show String.mk ((a.data ++ ['/']) ++ x.data) = String.mk (a.data ++ '/' :: x.data)
      rw [List.append_assoc]
      rfl

/-- C5: for every successfully materialized revision, `save_as` equals the
`posixpath.join` of: the live document's url when it ends in `/` and the
dirname of that url otherwise; then the extension-stripped basename of the
live document's `save_as` — with this segment omitted altogether when that
root is `"index"` (the code passes an empty string to `join`, which is the
same thing); then the commit hash; then `"index"` plus the original
extension.  The revision's url is the dirname of that `save_as`
(lines 98-108). -/
theorem revision_output_path (env : Env) (fp : String) (live : Content) (commit : Commit)
    (r : Content)
    (hm : materializeRevision env fp live commit = .ok r) :
    r.save_as =
      posixJoinMany (if endswithSep live.url then live.url else posixDirname live.url)
        ((if (splitext (posixBasename live.save_as)).1 = "index" then []
          else [(splitext (posixBasename live.save_as)).1]) ++
         [commit.hexsha, "index" ++ (splitext (posixBasename live.save_as)).2]) ∧
    r.url = posixDirname r.save_as := by
  unfold materializeRevision at hm
  by_cases hb : env.blobExists commit fp = false
  · rw [if_pos hb] at hm
    cases hm
  · rw [if_neg hb] at hm
    cases hr : env.readFile (revisionFormat fp) commit with
    | error msg =>
      rw [hr] at hm
      cases hm
    | ok parsed =>
      rw [hr] at hm
      cases hm
      refine ⟨?_, rfl⟩
      show revisionSaveAs live commit.hexsha = _
      unfold revisionSaveAs posixJoin4 posixJoinMany
      set B := if endswithSep live.url then live.url else posixDirname live.url with hB
      by_cases hroot : (splitext (posixBasename live.save_as)).1 = "index"
      · rw [if_neg (fun h => h hroot), if_pos hroot]
        simp only [List.nil_append, List.foldl_cons, List.foldl_nil]
        rw [posixJoin2_empty_assoc]
      · rw [if_pos hroot, if_neg hroot]
        simp only [List.cons_append, List.nil_append, List.foldl_cons, List.foldl_nil]

lemma head?_ne_slash_of_not_mem {l : List Char} (hne : l ≠ []) (hsl : '/' ∉ l) :
    l.head? ≠ some '/' := by
  cases l with
  | nil => exact absurd rfl hne
  | cons c t =>
    rw [List.head?_cons]
    intro h
    injection h with hc
    exact hsl (hc ▸ List.mem_cons_self c t)

lemma getLast?_ne_slash_of_not_mem {l : List Char} (hne : l ≠ []) (hsl : '/' ∉ l) :
    l.getLast? ≠ some '/' := by
  rw [List.getLast?_eq_getLast l hne]
  intro h
  injection h with hc
  exact hsl (hc ▸ List.getLast_mem hne)

lemma joinPre_ok (j : List Char) : joinPre j = [] ∨ (joinPre j).getLast? = some '/' := by
  unfold joinPre
  by_cases h1 : j = []
  · rw [if_pos h1]
    exact Or.inl rfl
  · rw [if_neg h1]
    by_cases h2 : j.getLast? = some '/'
    · rw [if_pos h2]
      exact Or.inr h2
    · rw [if_neg h2]
      exact Or.inr (List.getLast?_concat j)

lemma posixJoin2_inner_shape (J h : String) (hne : h.data ≠ []) (hsl : '/' ∉ h.data) :
    (posixJoin2 J h).data = joinPre J.data ++ h.data := by
  unfold posixJoin2 joinPre
  rw [if_neg (head?_ne_slash_of_not_mem hne hsl)]
  by_cases h1 : J.data = []
  · rw [if_pos (Or.inl h1), if_pos h1]
    show J.data ++ h.data = [] ++ h.data
    rw [h1]
  · by_cases h2 : J.data.getLast? = some '/'
    · rw [if_pos (Or.inr h2), if_neg h1, if_pos h2]
    · rw [if_neg (fun hor => hor.elim h1 h2), if_neg h1, if_neg h2]
      show J.data ++ '/' :: h.data = (J.data ++ ['/']) ++ h.data
      rw [List.append_assoc]
      rfl

lemma posixJoin2_outer_shape (J h y : String) (hne : h.data ≠ []) (hsl : '/' ∉ h.data)
    (hy : y.data.head? ≠ some '/') :
    (posixJoin2 (posixJoin2 J h) y).data = joinPre J.data ++ (h.data ++ '/' :: y.data) := by
  have hinner : (posixJoin2 J h).data = joinPre J.data ++ h.data :=
    posixJoin2_inner_shape J h hne hsl
  set K := posixJoin2 J h with hK
  unfold posixJoin2
  rw [if_neg hy]
  have hKne : ¬ K.data = [] := by
    rw [hinner]
    intro hcon
    exact hne (List.append_eq_nil.mp hcon).2
  have hKlast : K.data.getLast? = some (h.data.getLast hne) := by
    rw [hinner, List.getLast?_append, List.getLast?_eq_getLast h.data hne]
    rfl
  have hKslash : ¬ K.data.getLast? = some '/' := by
    rw [hKlast]
    intro hcon
    injection hcon with hc
    exact hsl (hc ▸ List.getLast_mem hne)
  rw [if_neg (fun hor => hor.elim hKne hKslash)]
  show K.data ++ '/' :: y.data = joinPre J.data ++ (h.data ++ '/' :: y.data)
  rw [hinner, List.append_assoc]

lemma index_ext_head (e : String) :
    ("index" ++ e).data.head? = some 'i' := by
  rw [String.data_append]
  rfl

lemma revisionSaveAs_shape (live : Content) (hexsha : String)
    (hne : hexsha.data ≠ []) (hsl : '/' ∉ hexsha.data) :
    (revisionSaveAs live hexsha).data =
      joinPre (posixJoin2
        (if endswithSep live.url then live.url else posixDirname live.url)
        (if (splitext (posixBasename live.save_as)).1 ≠ "index" then
          (splitext (posixBasename live.save_as)).1 else "")).data ++
      (hexsha.data ++ '/' ::
        ("index" ++ (splitext (posixBasename live.save_as)).2).data) := by
  unfold revisionSaveAs posixJoin4
  refine posixJoin2_outer_shape _ hexsha _ hne hsl ?_
  rw [index_ext_head]
  intro h
  cases h

/-- C6: two distinct commits (distinct, non-empty, slash-free hex hashes) on
the same live document produce distinct `save_as` paths, and each path
contains its own commit's hash as a whole path segment (lines 104-107). -/
theorem revision_paths_unique (live : Content) (c1 c2 : Commit)
    (hd : c1.hexsha ≠ c2.hexsha)
    (h1n : c1.hexsha.data ≠ []) (h2n : c2.hexsha.data ≠ [])
    (h1s : '/' ∉ c1.hexsha.data) (h2s : '/' ∉ c2.hexsha.data) :
    revisionSaveAs live c1.hexsha ≠ revisionSaveAs live c2.hexsha ∧
    isPathSegment c1.hexsha (revisionSaveAs live c1.hexsha) ∧
    isPathSegment c2.hexsha (revisionSaveAs live c2.hexsha) := by
  have hs1 := revisionSaveAs_shape live c1.hexsha h1n h1s
  have hs2 := revisionSaveAs_shape live c2.hexsha h2n h2s
  refine ⟨?_, ⟨h1s, ?_⟩, ⟨h2s, ?_⟩⟩
  · intro hcon
    have hdata := congrArg String.data hcon
    rw [hs1, hs2] at hdata
    have h5 := List.append_cancel_left hdata
    have h6 := List.append_cancel_right h5
    exact hd (congrArg String.mk h6)
  · exact ⟨joinPre (posixJoin2
        (if endswithSep live.url then live.url else posixDirname live.url)
        (if (splitext (posixBasename live.save_as)).1 ≠ "index" then
          (splitext (posixBasename live.save_as)).1 else "")).data,
      '/' :: ("index" ++ (splitext (posixBasename live.save_as)).2).data,
      by rw [hs1, List.append_assoc], joinPre_ok _, Or.inr rfl⟩
  · exact ⟨joinPre (posixJoin2
        (if endswithSep live.url then live.url else posixDirname live.url)
        (if (splitext (posixBasename live.save_as)).1 ≠ "index" then
          (splitext (posixBasename live.save_as)).1 else "")).data,
      '/' :: ("index" ++ (splitext (posixBasename live.save_as)).2).data,
      by rw [hs2, List.append_assoc], joinPre_ok _, Or.inr rfl⟩

/-! ### Concrete witnesses -/

theorem revision_chain_links_witness :
    (on_content_object_init envW .live sW).state.revs.length = ([cmA, cmB] : List Commit).length ∧
    ∀ i, i < ([cmA, cmB] : List Commit).length →
      ∃ r g, (on_content_object_init envW .live sW).state.revs[i]? = some r ∧
        r.git? = some g ∧
        g.previous_revision = (if i > 0 then some (i - 1) else none) ∧
        g.next_revision =
          (if (i : Int) = (([cmA, cmB] : List Commit).length : Int) - 2 then
             some NextRef.content
           else if (i : Int) < (([cmA, cmB] : List Commit).length : Int) - 1 then
             some (NextRef.rev (i + 1))
           else none) :=
  revision_chain_links envW sW "/r" [cmA, cmB] (by decide) (by decide) (by decide)
    (by decide) (by decide) (by decide)

theorem live_chain_terminal_witness :
    ∃ g, (on_content_object_init envW .live sW).state.live.git? = some g ∧
      g.commit = cmB ∧
      (envW.iterCommits "/r" (make_repository_file_path envW "/r" sW.live.source_path)).head?
        = some cmB ∧
      g.previous_revision =
        (if 1 < ([cmA, cmB] : List Commit).length then
          some (([cmA, cmB] : List Commit).length - 2)
         else none) ∧
      g.next_revision = none :=
  live_chain_terminal envW sW "/r" [cmA, cmB] cmB (by decide) (by decide) (by decide)
    (by decide) (by decide) (by decide) (by decide)

theorem rechained_object_frame_witness :
    ∃ s2, on_content_object_init envW (.rev 1) sChained = .ok s2 ∧
      s2.live = sChained.live ∧
      s2.revs.length = sChained.revs.length ∧
      s2.revs[1]? = some { revW1 with date? := some gW1.commit.authored_date } ∧
      (∀ j, gW1.previous_revision = some j →
        s2.revs[j]? = (sChained.revs[j]?).map
          (fun p => { p with modified? := some gW1.commit.authored_date })) ∧
      (∀ k, k ≠ 1 → gW1.previous_revision ≠ some k → s2.revs[k]? = sChained.revs[k]?) :=
  rechained_object_frame envW sChained 1 revW1 gW1 "/r" cmA [cmB] (by decide) (by decide)
    (by decide) (by decide) (by decide) (by decide)

theorem live_dates_only_inferred_witness :
    (on_content_object_init envW .live sW).state.live.date? =
      (if sW.live.date? = none then some cmA.authored_date else sW.live.date?) ∧
    (on_content_object_init envW .live sW).state.live.modified? =
      (if cmA ≠ cmB ∧ sW.live.modified? = none then some cmB.authored_date
       else sW.live.modified?) :=
  live_dates_only_inferred envW sW "/r" [cmA, cmB] cmA cmB (by decide) (by decide)
    (by decide) (by decide) (by decide) (by decide)

theorem revision_output_path_witness :
    rW.save_as =
      posixJoinMany (if endswithSep liveW.url then liveW.url else posixDirname liveW.url)
        ((if (splitext (posixBasename liveW.save_as)).1 = "index" then []
          else [(splitext (posixBasename liveW.save_as)).1]) ++
         [cmA.hexsha, "index" ++ (splitext (posixBasename liveW.save_as)).2]) ∧
    rW.url = posixDirname rW.save_as :=
  revision_output_path envW "a.md" liveW cmA rW (by decide)

theorem revision_paths_unique_witness :
    revisionSaveAs liveW cmA.hexsha ≠ revisionSaveAs liveW cmB.hexsha ∧
    isPathSegment cmA.hexsha (revisionSaveAs liveW cmA.hexsha) ∧
    isPathSegment cmB.hexsha (revisionSaveAs liveW cmB.hexsha) :=
  revision_paths_unique liveW cmA cmB (by decide) (by decide) (by decide) (by decide)
    (by decide)

theorem untracked_path_untouched_witness :
    on_content_object_init envE .live sW = .ok sW :=
  untracked_path_untouched envE .live sW liveW (by decide) (by decide)

theorem materialization_failure_surfaced_witness :
    (∃ e s2, on_content_object_init envF .live sW = .error e s2 ∧
      s2.live.git? = none ∧ s2.revs = sW.revs) ∧
    (∀ (docs : List ChainState) (k : Nat),
      (processDocuments envF docs)[k]? =
        (docs[k]?).map (fun d => on_content_object_init envF Ref.live d)) :=
  materialization_failure_surfaced envF sW "/r" [cmA, cmB] (by decide) (by decide)
    (by decide) (by decide) (by decide) ⟨cmB, by decide, Or.inl (by decide)⟩

theorem static_content_skipped_witness :
    on_content_object_init envW .live sStaticW = .ok sStaticW :=
  static_content_skipped envW .live sStaticW { liveW with isStatic := true } (by decide)
    (by decide)

end GitRevision
